import Mathlib

/-!
# CompactSize codec: embedding and verification

Shallow embedding of the CompactSize variable-length integer codec from
`src/main.py` (`CompactSizeEncoder.encode` and `CompactSizeDecoder.decode`).

Bytes are modelled as natural numbers (a genuine Python byte is `< 256`);
byte buffers are `List Nat`.  Python's `ValueError` is modelled by
`Except String`, carrying the exact message the source raises.
`int.to_bytes(n, byteorder='little')` becomes `toBytesLE n v` and
`int.from_bytes(data, byteorder='little')` becomes `fromBytesLE`.
Python's dynamically typed encoder argument (which may fail the
`isinstance(value, int)` check) is modelled by `PyVal`.
-/

/-- `u64` maximum, `18446744073709551615`, as in the source's range check. -/
def u64Max : Nat := 18446744073709551615

/-- `v.to_bytes (n, byteorder='little')`: the `n` little-endian base-256
digits of `v` (the source only calls it with `v < 256 ^ n`). -/
def toBytesLE (n : Nat) (v : Nat) : List Nat :=
  match n with
  | 0 => []
  | k + 1 => v % 256 :: toBytesLE k (v / 256)

/-- `int.from_bytes (bs, byteorder='little')`: value of a little-endian
base-256 digit list. -/
def fromBytesLE : List Nat → Nat
  | [] => 0
  | b :: bs => b + 256 * fromBytesLE bs

/-- A Python value passed to `encode`: either an `int` (mathematical
integer) or some non-integer object, which fails the source's
`isinstance(value, int)` check. -/
inductive PyVal where
  | int (z : Int)
  | other
deriving DecidableEq

/-- `CompactSizeEncoder.encode` from `src/main.py`.  Mirrors the source
line by line: the `isinstance`/negativity check, the u64-max check, then
the four-way range split with sentinel prefixes `0xFD`/`0xFE`/`0xFF`. -/
def encode (value : PyVal) : Except String (List Nat) :=
  match value with
  | .other => .error "Value must be a non-negative integer"
  | .int z =>
    if z < 0 then .error "Value must be a non-negative integer"
    else if z > (u64Max : Int) then .error "Value exceeds u64 maximum"
    else
      let v : Nat := z.toNat
      if v < 0xFD then .ok (toBytesLE 1 v)
      else if v ≤ 0xFFFF then .ok (0xFD :: toBytesLE 2 v)
      else if v ≤ 0xFFFFFFFF then .ok (0xFE :: toBytesLE 4 v)
      else .ok (0xFF :: toBytesLE 8 v)

/-- `CompactSizeDecoder.decode` from `src/main.py`.  `first :: rest`
destructures the buffer, so the source's `len(data)` is `rest.length + 1`
and the slice `data[1:k+1]` is `rest.take k`.  The final catch-all branch
of the source is kept verbatim, including its f-string message. -/
def decode (data : List Nat) : Except String (Nat × Nat) :=
  match data with
  | [] => .error "Data is too short to decode CompactSize."
  | first :: rest =>
    if first < 0xFD then .ok (first, 1)
    else if first = 0xFD then
      if rest.length + 1 < 3 then .error "Data too short"
      else .ok (fromBytesLE (rest.take 2), 3)
    else if first = 0xFE then
      if rest.length + 1 < 5 then .error "Data too short"
      else .ok (fromBytesLE (rest.take 4), 5)
    else if first = 0xFF then
      if rest.length + 1 < 9 then .error "Data too short"
      else .ok (fromBytesLE (rest.take 8), 9)
    else .error ("Invalid CompactSize prefix: " ++ toString first)

/-- The two encode-side error messages the source can raise; the spec's
`InvalidValue` error kind. -/
def isInvalidValueMsg (m : String) : Bool :=
  m = "Value must be a non-negative integer" || m = "Value exceeds u64 maximum"

/-- The two decode-side truncation messages the source can raise; the
spec's `Truncated` error kind. -/
def isTruncatedMsg (m : String) : Bool :=
  m = "Data is too short to decode CompactSize." || m = "Data too short"

/-- A buffer of genuine bytes: every entry below 256. -/
def ByteBuf (data : List Nat) : Prop := ∀ b ∈ data, b < 256

/-- The capacity of each of the four CompactSize forms, from the format
description: a 1-byte form holds values below the first sentinel `0xFD`;
the 3/5/9-byte forms hold 16/32/64-bit values. -/
def formCap (L : Nat) : Nat :=
  if L = 1 then 0xFD
  else if L = 3 then 0x10000
  else if L = 5 then 0x100000000
  else if L = 9 then 0x10000000000000000
  else 0

/-- Little-endian read of `n` bytes of `data` starting at offset `off`,
written independently of the decoder (positional weighted sum), to state
what "little-endian unsigned read from bytes 1..k" means. -/
def readLE (data : List Nat) (off n : Nat) : Nat :=
  ∑ i ∈ Finset.range n, 256 ^ i * data.getD (off + i) 0

/- ### Byte-conversion lemmas -/

theorem toBytesLE_length (n v : Nat) : (toBytesLE n v).length = n := by
  induction n generalizing v with
  | zero => rfl
  | succ k ih => simp [toBytesLE, ih]

theorem fromBytesLE_toBytesLE (n v : Nat) (h : v < 256 ^ n) :
    fromBytesLE (toBytesLE n v) = v := by
  induction n generalizing v with
  | zero =>
    simp [pow_zero] at h
    simp [toBytesLE, fromBytesLE, h]
  | succ k ih =>
    have hdiv : v / 256 < 256 ^ k := by
      rw [Nat.div_lt_iff_lt_mul (by norm_num)]
      calc v < 256 ^ (k + 1) := h
        _ = 256 ^ k * 256 := by ring
    simp only [toBytesLE, fromBytesLE, ih _ hdiv]
    omega

theorem mem_toBytesLE_lt (n v : Nat) : ∀ b ∈ toBytesLE n v, b < 256 := by
  induction n generalizing v with
  | zero => simp [toBytesLE]
  | succ k ih =>
    intro b hb
    simp only [toBytesLE, List.mem_cons] at hb
    rcases hb with h | h
    · omega
    · exact ih _ b h

theorem fromBytesLE_lt (bs : List Nat) (h : ∀ b ∈ bs, b < 256) :
    fromBytesLE bs < 256 ^ bs.length := by
  induction bs with
  | nil => simp [fromBytesLE]
  | cons b t ih =>
    have hb : b < 256 := h b (List.mem_cons_self b t)
    have ht := ih fun x hx => h x (List.mem_cons_of_mem b hx)
    simp only [fromBytesLE, List.length_cons, pow_succ]
    calc b + 256 * fromBytesLE t
        ≤ 255 + 256 * (256 ^ t.length - 1) := by
          have : fromBytesLE t ≤ 256 ^ t.length - 1 := by omega
          omega
      _ < 256 ^ t.length * 256 := by
          have : 1 ≤ 256 ^ t.length := Nat.one_le_pow _ _ (by norm_num)
          omega

theorem fromBytesLE_take_eq_readLE (l : List Nat) (n : Nat) :
    fromBytesLE (l.take n) = readLE l 0 n := by
  induction n generalizing l with
  | zero => simp [readLE, fromBytesLE]
  | succ k ih =>
    cases l with
    | nil =>
      simp [readLE, fromBytesLE, List.getD]
    | cons b t =>
      simp only [List.take_succ_cons, fromBytesLE, ih t]
      rw [readLE, readLE, Finset.sum_range_succ']
      simp only [zero_add, List.getD_cons_succ, List.getD_cons_zero, pow_zero,
        one_mul, pow_succ]
      rw [Finset.mul_sum, add_comm]
      congr 1
      exact Finset.sum_congr rfl fun i _ => by ring

theorem readLE_cons (b : Nat) (t : List Nat) (n : Nat) :
    readLE (b :: t) 1 n = readLE t 0 n := by
  unfold readLE
  apply Finset.sum_congr rfl
  intro i _
  rw [Nat.add_comm 1 i, List.getD_cons_succ, Nat.zero_add]

/- ### Branch characterizations of `encode` and `decode` -/

theorem encode_nat_eq (v : Nat) (hv : v ≤ u64Max) :
    encode (PyVal.int (v : Int)) =
      .ok (if v < 0xFD then toBytesLE 1 v
        else if v ≤ 0xFFFF then 0xFD :: toBytesLE 2 v
        else if v ≤ 0xFFFFFFFF then 0xFE :: toBytesLE 4 v
        else 0xFF :: toBytesLE 8 v) := by
  have h0 : ¬ ((v : Int) < 0) := by
    simp [Int.natCast_nonneg]
  have h1 : ¬ ((v : Int) > (u64Max : Int)) := by
    simp only [gt_iff_lt, not_lt]
    exact_mod_cast hv
  simp only [encode, if_neg h0, if_neg h1, Int.toNat_natCast]
  split_ifs <;> rfl

theorem toBytesLE_one (v : Nat) (h : v < 256) : toBytesLE 1 v = [v] := by
  simp [toBytesLE, Nat.mod_eq_of_lt h]

theorem take_toBytesLE (n v : Nat) : (toBytesLE n v).take n = toBytesLE n v :=
  List.take_of_length_le (le_of_eq (toBytesLE_length n v))

theorem decode_small (b : Nat) (rest : List Nat) (h : b < 0xFD) :
    decode (b :: rest) = .ok (b, 1) := by
  simp only [decode, if_pos h]

theorem decode_fd (rest : List Nat) (h : 2 ≤ rest.length) :
    decode (0xFD :: rest) = .ok (fromBytesLE (rest.take 2), 3) := by
  simp only [decode]
  split_ifs <;> first | rfl | omega

theorem decode_fe (rest : List Nat) (h : 4 ≤ rest.length) :
    decode (0xFE :: rest) = .ok (fromBytesLE (rest.take 4), 5) := by
  simp only [decode]
  split_ifs <;> first | rfl | omega


theorem decode_ff (rest : List Nat) (h : 8 ≤ rest.length) :
    decode (0xFF :: rest) = .ok (fromBytesLE (rest.take 8), 9) := by
  simp only [decode]
  split_ifs <;> first | rfl | omega


/- ### C1: encode/decode round-trip -/

/-- **C1.** For every integer `v` in `[0, 2^64-1]`, `encode v` succeeds and
decoding its output returns exactly `(v, len (encode v))`. -/
theorem encode_decode_roundtrip (v : Nat) (hv : v ≤ u64Max) :
    ∃ bs, encode (PyVal.int (v : Int)) = .ok bs ∧
      decode bs = .ok (v, bs.length) := by
  rw [encode_nat_eq v hv]
  by_cases h1 : v < 0xFD
  · refine ⟨toBytesLE 1 v, by rw [if_pos h1], ?_⟩
    rw [toBytesLE_one v (by omega)]
    simpa using decode_small v [] h1
  · by_cases h2 : v ≤ 0xFFFF
    · refine ⟨0xFD :: toBytesLE 2 v, by rw [if_neg h1, if_pos h2], ?_⟩
      rw [decode_fd _ (le_of_eq (toBytesLE_length 2 v).symm), take_toBytesLE,
        fromBytesLE_toBytesLE 2 v (by norm_num; omega)]
      simp [toBytesLE_length]
    · by_cases h3 : v ≤ 0xFFFFFFFF
      · refine ⟨0xFE :: toBytesLE 4 v, by rw [if_neg h1, if_neg h2, if_pos h3], ?_⟩
        rw [decode_fe _ (le_of_eq (toBytesLE_length 4 v).symm), take_toBytesLE,
          fromBytesLE_toBytesLE 4 v (by norm_num; omega)]
        simp [toBytesLE_length]
      · refine ⟨0xFF :: toBytesLE 8 v,
          by rw [if_neg h1, if_neg h2, if_neg h3], ?_⟩
        rw [decode_ff _ (le_of_eq (toBytesLE_length 8 v).symm), take_toBytesLE,
          fromBytesLE_toBytesLE 8 v (by rw [u64Max] at hv; norm_num; omega)]
        simp [toBytesLE_length]

/-- Witness for C1 at `v = 65536`. -/
theorem encode_decode_roundtrip_witness :
    ∃ bs, encode (PyVal.int ((65536 : Nat) : Int)) = .ok bs ∧
      decode bs = .ok (65536, bs.length) :=
  encode_decode_roundtrip 65536 (by norm_num [u64Max])

/- ### Length of a successful encoding -/

theorem encode_ok_length (v : Nat) (bs : List Nat)
    (h : encode (PyVal.int (v : Int)) = .ok bs) :
    v ≤ u64Max ∧
      bs.length = (if v < 0xFD then 1 else if v ≤ 0xFFFF then 3
        else if v ≤ 0xFFFFFFFF then 5 else 9) := by
  by_cases hv : v ≤ u64Max
  · rw [encode_nat_eq v hv] at h
    refine ⟨hv, ?_⟩
    split_ifs at h ⊢ <;>
      (injection h with h; subst h; simp [toBytesLE_length])
  · exfalso
    have herr : encode (PyVal.int (v : Int)) = .error "Value exceeds u64 maximum" := by
      have h0 : ¬ ((v : Int) < 0) := by simp [Int.natCast_nonneg]
      have h1 : (v : Int) > (u64Max : Int) := by
        simp only [gt_iff_lt]
        exact_mod_cast Nat.lt_of_not_le hv
      simp only [encode, if_neg h0, if_pos h1]
    rw [herr] at h
    exact Except.noConfusion h

/- ### C2: encode minimality and exact pivot outputs -/

/-- **C2.** Every successful `encode v` output is one of the four forms
(1/3/5/9 bytes), that form can represent `v`, and no shorter of the four
capable forms exists; the pivot values `0`, `252`, `253`, `65535`,
`65536`, `4294967295`, `4294967296` produce exactly the advertised bytes
(hence the advertised lengths 1, 1, 3, 3, 5, 5, 9). -/
theorem encode_minimal :
    (∀ (v : Nat) (bs : List Nat), encode (PyVal.int (v : Int)) = .ok bs →
      (bs.length = 1 ∨ bs.length = 3 ∨ bs.length = 5 ∨ bs.length = 9) ∧
      v < formCap bs.length ∧
      ∀ L, (L = 1 ∨ L = 3 ∨ L = 5 ∨ L = 9) → v < formCap L → bs.length ≤ L) ∧
    encode (PyVal.int 0) = .ok [0x00] ∧
    encode (PyVal.int 252) = .ok [0xFC] ∧
    encode (PyVal.int 253) = .ok [0xFD, 0xFD, 0x00] ∧
    encode (PyVal.int 65535) = .ok [0xFD, 0xFF, 0xFF] ∧
    encode (PyVal.int 65536) = .ok [0xFE, 0x00, 0x00, 0x01, 0x00] ∧
    encode (PyVal.int 4294967295) = .ok [0xFE, 0xFF, 0xFF, 0xFF, 0xFF] ∧
    encode (PyVal.int 4294967296) =
      .ok [0xFF, 0x00, 0x00, 0x00, 0x00, 0x01, 0x00, 0x00, 0x00] := by
  refine ⟨?_, by rfl, by rfl, by rfl, by rfl, by rfl, by rfl, by rfl⟩
  intro v bs h
  obtain ⟨hv, hlen⟩ := encode_ok_length v bs h
  have hv' : v < 0x10000000000000000 := by rw [u64Max] at hv; omega
  split_ifs at hlen with h1 h2 h3
  · refine ⟨by omega, ?_, ?_⟩
    · rw [hlen]; simp only [formCap]; norm_num; omega
    · intro L hL hvL
      rcases hL with rfl | rfl | rfl | rfl <;> omega
  · refine ⟨by omega, ?_, ?_⟩
    · rw [hlen]; simp only [formCap]; norm_num; omega
    · intro L hL hvL
      rcases hL with rfl | rfl | rfl | rfl <;>
        simp only [formCap] at hvL <;> norm_num at hvL <;> omega
  · refine ⟨by omega, ?_, ?_⟩
    · rw [hlen]; simp only [formCap]; norm_num; omega
    · intro L hL hvL
      rcases hL with rfl | rfl | rfl | rfl <;>
        simp only [formCap] at hvL <;> norm_num at hvL <;> omega
  · refine ⟨by omega, ?_, ?_⟩
    · rw [hlen]; simp only [formCap]; norm_num; omega
    · intro L hL hvL
      rcases hL with rfl | rfl | rfl | rfl <;>
        simp only [formCap] at hvL <;> norm_num at hvL <;> omega

/-- Witness for C2's quantified part at `v = 253`, `bs = FD FD 00`. -/
theorem encode_minimal_witness :
    encode (PyVal.int ((253 : Nat) : Int)) = .ok [0xFD, 0xFD, 0x00] ∧
    ([0xFD, 0xFD, 0x00] : List Nat).length ≤ 3 := by
  have h : encode (PyVal.int ((253 : Nat) : Int)) = .ok [0xFD, 0xFD, 0x00] := by rfl
  exact ⟨h, (encode_minimal.1 253 [0xFD, 0xFD, 0x00] h).2.2 3 (by omega)
    (by simp only [formCap]; norm_num)⟩

/- ### C10: encoding length is monotone in the value -/

/-- **C10.** For `0 ≤ u ≤ v ≤ 2^64-1`, `len (encode u) ≤ len (encode v)`. -/
theorem encode_length_monotone (u v : Nat) (bu bv : List Nat) (huv : u ≤ v)
    (hu : encode (PyVal.int (u : Int)) = .ok bu)
    (hv : encode (PyVal.int (v : Int)) = .ok bv) :
    bu.length ≤ bv.length := by
  obtain ⟨-, hlu⟩ := encode_ok_length u bu hu
  obtain ⟨-, hlv⟩ := encode_ok_length v bv hv
  rw [hlu, hlv]
  split_ifs <;> omega

/-- Witness for C10 at `u = 252`, `v = 70000`. -/
theorem encode_length_monotone_witness :
    ([0xFC] : List Nat).length ≤ ([0xFE, 0x70, 0x11, 0x01, 0x00] : List Nat).length :=
  encode_length_monotone 252 70000 [0xFC] [0xFE, 0x70, 0x11, 0x01, 0x00]
    (by omega) (by rfl) (by rfl)

/- ### Inversion of a successful decode -/

theorem decode_ok_inv (data : List Nat) (v c : Nat)
    (h : decode data = .ok (v, c)) :
    ∃ first rest, data = first :: rest ∧
      ((first < 0xFD ∧ v = first ∧ c = 1) ∨
       (first = 0xFD ∧ 2 ≤ rest.length ∧ v = fromBytesLE (rest.take 2) ∧ c = 3) ∨
       (first = 0xFE ∧ 4 ≤ rest.length ∧ v = fromBytesLE (rest.take 4) ∧ c = 5) ∨
       (first = 0xFF ∧ 8 ≤ rest.length ∧ v = fromBytesLE (rest.take 8) ∧ c = 9)) := by
  cases data with
  | nil => exact absurd h (by simp [decode])
  | cons first rest =>
    refine ⟨first, rest, rfl, ?_⟩
    simp only [decode] at h
    by_cases h1 : first < 0xFD
    · rw [if_pos h1] at h
      simp only [Except.ok.injEq, Prod.mk.injEq] at h
      exact Or.inl ⟨h1, h.1.symm, h.2.symm⟩
    · rw [if_neg h1] at h
      by_cases h2 : first = 0xFD
      · rw [if_pos h2] at h
        by_cases hl : rest.length + 1 < 3
        · rw [if_pos hl] at h; exact absurd h (by simp)
        · rw [if_neg hl] at h
          simp only [Except.ok.injEq, Prod.mk.injEq] at h
          exact Or.inr (Or.inl ⟨h2, by omega, h.1.symm, h.2.symm⟩)
      · rw [if_neg h2] at h
        by_cases h3 : first = 0xFE
        · rw [if_pos h3] at h
          by_cases hl : rest.length + 1 < 5
          · rw [if_pos hl] at h; exact absurd h (by simp)
          · rw [if_neg hl] at h
            simp only [Except.ok.injEq, Prod.mk.injEq] at h
            exact Or.inr (Or.inr (Or.inl ⟨h3, by omega, h.1.symm, h.2.symm⟩))
        · rw [if_neg h3] at h
          by_cases h4 : first = 0xFF
          · rw [if_pos h4] at h
            by_cases hl : rest.length + 1 < 9
            · rw [if_pos hl] at h; exact absurd h (by simp)
            · rw [if_neg hl] at h
              simp only [Except.ok.injEq, Prod.mk.injEq] at h
              exact Or.inr (Or.inr (Or.inr ⟨h4, by omega, h.1.symm, h.2.symm⟩))
          · rw [if_neg h4] at h
            exact absurd h (by simp)

/- ### C3: the four successful decode shapes -/

/-- **C3.** Whenever `decode` succeeds on a buffer, either the first byte
is below `0xFD` and the result is that byte with 1 consumed, or the first
byte is a sentinel `0xFD`/`0xFE`/`0xFF`, the buffer holds at least
3/5/9 bytes, the value is the little-endian unsigned 16/32/64-bit read of
bytes 1..2 / 1..4 / 1..8 (stated via the position-weighted sum `readLE`,
independent of the decoder), and 3/5/9 bytes are consumed. -/
theorem decode_success_spec (data : List Nat) (v c : Nat)
    (h : decode data = .ok (v, c)) :
    ∃ first rest, data = first :: rest ∧
      ((first < 0xFD ∧ v = first ∧ c = 1) ∨
       (first = 0xFD ∧ 3 ≤ data.length ∧ v = readLE data 1 2 ∧ c = 3) ∨
       (first = 0xFE ∧ 5 ≤ data.length ∧ v = readLE data 1 4 ∧ c = 5) ∨
       (first = 0xFF ∧ 9 ≤ data.length ∧ v = readLE data 1 8 ∧ c = 9)) := by
  obtain ⟨first, rest, rfl, hcase⟩ := decode_ok_inv data v c h
  refine ⟨first, rest, rfl, ?_⟩
  have hread : ∀ n, fromBytesLE (rest.take n) = readLE (first :: rest) 1 n :=
    fun n => by rw [fromBytesLE_take_eq_readLE, readLE_cons]
  rcases hcase with ⟨h1, hv, hc⟩ | ⟨h1, hl, hv, hc⟩ | ⟨h1, hl, hv, hc⟩ | ⟨h1, hl, hv, hc⟩
  · exact Or.inl ⟨h1, hv, hc⟩
  · exact Or.inr (Or.inl ⟨h1, by simp only [List.length_cons]; omega,
      by rw [hv, hread], hc⟩)
  · exact Or.inr (Or.inr (Or.inl ⟨h1, by simp only [List.length_cons]; omega,
      by rw [hv, hread], hc⟩))
  · exact Or.inr (Or.inr (Or.inr ⟨h1, by simp only [List.length_cons]; omega,
      by rw [hv, hread], hc⟩))

/-- Witness for C3 at buffer `FD 02 01 99`: value `258`, consumed `3`. -/
theorem decode_success_spec_witness :
    ∃ first rest, ([0xFD, 0x02, 0x01, 0x99] : List Nat) = first :: rest ∧
      ((first < 0xFD ∧ 258 = first ∧ 3 = 1) ∨
       (first = 0xFD ∧ 3 ≤ ([0xFD, 0x02, 0x01, 0x99] : List Nat).length ∧
         258 = readLE [0xFD, 0x02, 0x01, 0x99] 1 2 ∧ 3 = 3) ∨
       (first = 0xFE ∧ 5 ≤ ([0xFD, 0x02, 0x01, 0x99] : List Nat).length ∧
         258 = readLE [0xFD, 0x02, 0x01, 0x99] 1 4 ∧ 3 = 5) ∨
       (first = 0xFF ∧ 9 ≤ ([0xFD, 0x02, 0x01, 0x99] : List Nat).length ∧
         258 = readLE [0xFD, 0x02, 0x01, 0x99] 1 8 ∧ 3 = 9)) :=
  decode_success_spec [0xFD, 0x02, 0x01, 0x99] 258 3 (by rfl)

/- ### C5: encode rejects out-of-domain inputs -/

/-- **C5.** `encode` fails with an `InvalidValue` error (and hence returns
no bytes) for every input that is a negative integer, exceeds `2^64-1`, or
is not an integer at all; in particular `encode (-1)` and `encode (2^64)`
fail with the two invalid-value messages. -/
theorem encode_invalid_value :
    (∀ x : PyVal, (∀ z : Int, x = PyVal.int z → z < 0 ∨ (u64Max : Int) < z) →
      ∃ m, encode x = .error m ∧ isInvalidValueMsg m = true) ∧
    encode (PyVal.int (-1)) = .error "Value must be a non-negative integer" ∧
    encode (PyVal.int (2 ^ 64)) = .error "Value exceeds u64 maximum" := by
  refine ⟨?_, by rfl, ?_⟩
  · intro x hx
    cases x with
    | other => exact ⟨_, rfl, by rfl⟩
    | int z =>
      rcases hx z rfl with hneg | hbig
      · exact ⟨"Value must be a non-negative integer",
          by simp only [encode, if_pos hneg], by rfl⟩
      · refine ⟨"Value exceeds u64 maximum", ?_, by rfl⟩
        have h0 : ¬ (z < 0) := by
          have : (0 : Int) ≤ (u64Max : Int) := by positivity
          omega
        simp only [encode, if_neg h0, if_pos (gt_iff_lt.mpr hbig)]
  · have : (2 ^ 64 : Int) = ((18446744073709551616 : Nat) : Int) := by norm_num
    rw [this]
    rfl

/-- Witness for C5 at the non-integer input. -/
theorem encode_invalid_value_witness :
    ∃ m, encode PyVal.other = .error m ∧ isInvalidValueMsg m = true :=
  encode_invalid_value.1 PyVal.other (fun z hz => by cases hz)

/- ### C6: the decoder accepts non-minimal encodings -/

/-- **C6.** `decode` makes no canonicality check: every sentinel-prefixed
buffer whose payload fits the prefix's width decodes to the payload value
with the width declared by the prefix, whether or not a shorter form could
hold it; in particular `FD 00 00` decodes to `(0, 3)`, a form `encode 0`
(which yields the single byte `00`) never produces. -/
theorem decode_permissive :
    (∀ v : Nat, v < 0x10000 → decode (0xFD :: toBytesLE 2 v) = .ok (v, 3)) ∧
    (∀ v : Nat, v < 0x100000000 → decode (0xFE :: toBytesLE 4 v) = .ok (v, 5)) ∧
    (∀ v : Nat, v < 0x10000000000000000 → decode (0xFF :: toBytesLE 8 v) = .ok (v, 9)) ∧
    decode [0xFD, 0x00, 0x00] = .ok (0, 3) ∧
    encode (PyVal.int 0) = .ok [0x00] := by
  refine ⟨?_, ?_, ?_, by rfl, by rfl⟩
  · intro v hv
    rw [decode_fd _ (le_of_eq (toBytesLE_length 2 v).symm), take_toBytesLE,
      fromBytesLE_toBytesLE 2 v (by norm_num; omega)]
  · intro v hv
    rw [decode_fe _ (le_of_eq (toBytesLE_length 4 v).symm), take_toBytesLE,
      fromBytesLE_toBytesLE 4 v (by norm_num; omega)]
  · intro v hv
    rw [decode_ff _ (le_of_eq (toBytesLE_length 8 v).symm), take_toBytesLE,
      fromBytesLE_toBytesLE 8 v (by norm_num; omega)]

/-- Witness for C6's quantified part: the non-minimal 5-byte form of `1`. -/
theorem decode_permissive_witness :
    decode (0xFE :: toBytesLE 4 1) = .ok (1, 5) :=
  decode_permissive.2.1 1 (by norm_num)

/- ### C9: bounds on every successful decode result -/

/-- **C9.** On any byte buffer where `decode` succeeds, the returned value
is at most `2^64-1`, the consumed count is one of 1, 3, 5, 9, and the
consumed count never exceeds the buffer length. -/
theorem decode_result_bounds (data : List Nat) (hb : ByteBuf data) (v c : Nat)
    (h : decode data = .ok (v, c)) :
    v ≤ u64Max ∧ (c = 1 ∨ c = 3 ∨ c = 5 ∨ c = 9) ∧ c ≤ data.length := by
  obtain ⟨first, rest, rfl, hcase⟩ := decode_ok_inv _ _ _ h
  have hrest : ∀ b ∈ rest, b < 256 :=
    fun b hbm => hb b (List.mem_cons_of_mem _ hbm)
  have hbound : ∀ n, fromBytesLE (rest.take n) < 256 ^ n := by
    intro n
    have hlt := fromBytesLE_lt (rest.take n)
      (fun b hbm => hrest b (List.take_subset _ _ hbm))
    have hlen : (rest.take n).length ≤ n := by
      simp [List.length_take]
    exact lt_of_lt_of_le hlt (Nat.pow_le_pow_right (by norm_num) hlen)
  rcases hcase with ⟨h1, rfl, rfl⟩ | ⟨h1, hl, rfl, rfl⟩ |
    ⟨h1, hl, rfl, rfl⟩ | ⟨h1, hl, rfl, rfl⟩
  · exact ⟨by rw [u64Max]; omega, by omega, by simp⟩
  · have := hbound 2
    refine ⟨by rw [u64Max]; norm_num at this; omega, by omega, ?_⟩
    simp only [List.length_cons]; omega
  · have := hbound 4
    refine ⟨by rw [u64Max]; norm_num at this; omega, by omega, ?_⟩
    simp only [List.length_cons]; omega
  · have := hbound 8
    refine ⟨by rw [u64Max]; norm_num at this; omega, by omega, ?_⟩
    simp only [List.length_cons]; omega

/-- Witness for C9 at buffer `FE FF FF FF FF`. -/
theorem decode_result_bounds_witness :
    4294967295 ≤ u64Max ∧ ((5 : Nat) = 1 ∨ (5 : Nat) = 3 ∨ (5 : Nat) = 5 ∨ (5 : Nat) = 9) ∧
      5 ≤ ([0xFE, 0xFF, 0xFF, 0xFF, 0xFF] : List Nat).length :=
  decode_result_bounds [0xFE, 0xFF, 0xFF, 0xFF, 0xFF]
    (by unfold ByteBuf; decide) 4294967295 5 (by rfl)

/- ### C7: decode depends only on the consumed prefix -/

/-- **C7.** A successful `decode data = (v, c)` consumes at most the whole
buffer, is already determined by the first `c` bytes alone (decoding just
that prefix gives the same result), and is unchanged by appending any
suffix: the decoder never reads past the declared consumed length. -/
theorem decode_reads_only_consumed (data : List Nat) (v c : Nat)
    (h : decode data = .ok (v, c)) :
    c ≤ data.length ∧ decode (data.take c) = .ok (v, c) ∧
      ∀ s, decode (data ++ s) = .ok (v, c) := by
  obtain ⟨first, rest, rfl, hcase⟩ := decode_ok_inv _ _ _ h
  rcases hcase with ⟨h1, rfl, rfl⟩ | ⟨h1, hl, rfl, rfl⟩ |
    ⟨h1, hl, rfl, rfl⟩ | ⟨h1, hl, rfl, rfl⟩
  · refine ⟨by simp, ?_, fun s => ?_⟩
    · simp only [List.take_succ_cons, List.take_zero]
      exact decode_small v [] h1
    · simp only [List.cons_append]
      exact decode_small v (rest ++ s) h1
  · subst h1
    have hmin : (rest.take 2).length = 2 := by
      simp only [List.length_take]; omega
    refine ⟨by simp only [List.length_cons]; omega, ?_, fun s => ?_⟩
    · simp only [List.take_succ_cons]
      rw [decode_fd (rest.take 2) (le_of_eq hmin.symm), List.take_take,
        Nat.min_self]
    · simp only [List.cons_append]
      rw [decode_fd (rest ++ s) (by simp only [List.length_append]; omega),
        List.take_append_of_le_length hl]
  · subst h1
    have hmin : (rest.take 4).length = 4 := by
      simp only [List.length_take]; omega
    refine ⟨by simp only [List.length_cons]; omega, ?_, fun s => ?_⟩
    · simp only [List.take_succ_cons]
      rw [decode_fe (rest.take 4) (le_of_eq hmin.symm), List.take_take,
        Nat.min_self]
    · simp only [List.cons_append]
      rw [decode_fe (rest ++ s) (by simp only [List.length_append]; omega),
        List.take_append_of_le_length hl]
  · subst h1
    have hmin : (rest.take 8).length = 8 := by
      simp only [List.length_take]; omega
    refine ⟨by simp only [List.length_cons]; omega, ?_, fun s => ?_⟩
    · simp only [List.take_succ_cons]
      rw [decode_ff (rest.take 8) (le_of_eq hmin.symm), List.take_take,
        Nat.min_self]
    · simp only [List.cons_append]
      rw [decode_ff (rest ++ s) (by simp only [List.length_append]; omega),
        List.take_append_of_le_length hl]

/-- Witness for C7 at buffer `FD 2A 00 07`: `(42, 3)`, stable under the
extra trailing byte. -/
theorem decode_reads_only_consumed_witness :
    3 ≤ ([0xFD, 0x2A, 0x00, 0x07] : List Nat).length ∧
      decode (([0xFD, 0x2A, 0x00, 0x07] : List Nat).take 3) = .ok (42, 3) ∧
      ∀ s, decode ([0xFD, 0x2A, 0x00, 0x07] ++ s) = .ok (42, 3) :=
  decode_reads_only_consumed [0xFD, 0x2A, 0x00, 0x07] 42 3 (by rfl)

/- ### C8: the catch-all invalid-prefix branch is dead code -/

/-- **C8.** On any buffer of genuine bytes (each `< 256`), every failure
of `decode` is one of the two truncation errors: the final catch-all
`Invalid CompactSize prefix` branch is unreachable, because the four cases
`< 0xFD`, `= 0xFD`, `= 0xFE`, `= 0xFF` exhaust a byte's value space. -/
theorem decode_invalid_branch_unreachable (data : List Nat) (hb : ByteBuf data)
    (m : String) (h : decode data = .error m) : isTruncatedMsg m = true := by
  cases data with
  | nil =>
    simp only [decode, Except.error.injEq] at h
    subst h; rfl
  | cons first rest =>
    have hf : first < 256 := hb first (List.mem_cons_self _ _)
    simp only [decode] at h
    by_cases h1 : first < 0xFD
    · rw [if_pos h1] at h; exact absurd h (by simp)
    · rw [if_neg h1] at h
      by_cases h2 : first = 0xFD
      · rw [if_pos h2] at h
        by_cases hl : rest.length + 1 < 3
        · rw [if_pos hl] at h
          simp only [Except.error.injEq] at h
          subst h; rfl
        · rw [if_neg hl] at h; exact absurd h (by simp)
      · rw [if_neg h2] at h
        by_cases h3 : first = 0xFE
        · rw [if_pos h3] at h
          by_cases hl : rest.length + 1 < 5
          · rw [if_pos hl] at h
            simp only [Except.error.injEq] at h
            subst h; rfl
          · rw [if_neg hl] at h; exact absurd h (by simp)
        · rw [if_neg h3] at h
          by_cases h4 : first = 0xFF
          · rw [if_pos h4] at h
            by_cases hl : rest.length + 1 < 9
            · rw [if_pos hl] at h
              simp only [Except.error.injEq] at h
              subst h; rfl
            · rw [if_neg hl] at h; exact absurd h (by simp)
          · exact absurd hf (by omega)

/-- Witness for C8 at the truncated buffer `FF`. -/
theorem decode_invalid_branch_unreachable_witness :
    isTruncatedMsg "Data too short" = true :=
  decode_invalid_branch_unreachable [0xFF] (by unfold ByteBuf; decide)
    "Data too short" (by rfl)

/- ### C4: truncation failures (amended) -/

theorem decode_fd_short (rest : List Nat) (h : rest.length < 2) :
    decode (0xFD :: rest) = .error "Data too short" := by
  simp only [decode]
  split_ifs <;> first | rfl | omega

theorem decode_fe_short (rest : List Nat) (h : rest.length < 4) :
    decode (0xFE :: rest) = .error "Data too short" := by
  simp only [decode]
  split_ifs <;> first | rfl | omega

theorem decode_ff_short (rest : List Nat) (h : rest.length < 8) :
    decode (0xFF :: rest) = .error "Data too short" := by
  simp only [decode]
  split_ifs <;> first | rfl | omega

/-- **C4, counterexample.** On the truncated buffer `FD 01` (1 trailing
byte where 2 are required) `decode` fails with the fixed message
`Data too short`, which contains no digit at all — so the error does not
identify the required (2) versus available (1) lengths, contrary to the
claim. -/
theorem decode_truncated_msg_counterexample :
    decode [0xFD, 0x01] = .error "Data too short" ∧
      ∀ ch ∈ "Data too short".data, ch.isDigit = false :=
  ⟨by rfl, by decide⟩

/-- **C4, amended.** `decode` on a byte buffer fails with a `Truncated`
error exactly when the buffer is too short for its declared width — the
empty buffer, or a first byte `0xFD`/`0xFE`/`0xFF` with fewer than 2/4/8
trailing bytes — and the error carries a fixed message rather than one
identifying the required vs. available lengths; a failed decode returns
no value and no consumed count (the error constructor carries neither). -/
theorem decode_truncated_iff (data : List Nat) (hb : ByteBuf data) :
    (∃ m, decode data = .error m ∧ isTruncatedMsg m = true) ↔
      (data = [] ∨ ∃ first rest, data = first :: rest ∧
        ((first = 0xFD ∧ rest.length < 2) ∨ (first = 0xFE ∧ rest.length < 4) ∨
         (first = 0xFF ∧ rest.length < 8))) := by
  cases data with
  | nil =>
    constructor
    · intro _
      exact Or.inl rfl
    · intro _
      exact ⟨"Data is too short to decode CompactSize.", by rfl, by rfl⟩
  | cons first rest =>
    constructor
    · rintro ⟨m, hm, -⟩
      simp only [decode] at hm
      by_cases h1 : first < 0xFD
      · rw [if_pos h1] at hm; exact absurd hm (by simp)
      · rw [if_neg h1] at hm
        by_cases h2 : first = 0xFD
        · by_cases hl : rest.length + 1 < 3
          · exact Or.inr ⟨first, rest, rfl, Or.inl ⟨h2, by omega⟩⟩
          · rw [if_pos h2, if_neg hl] at hm; exact absurd hm (by simp)
        · rw [if_neg h2] at hm
          by_cases h3 : first = 0xFE
          · by_cases hl : rest.length + 1 < 5
            · exact Or.inr ⟨first, rest, rfl, Or.inr (Or.inl ⟨h3, by omega⟩)⟩
            · rw [if_pos h3, if_neg hl] at hm; exact absurd hm (by simp)
          · rw [if_neg h3] at hm
            by_cases h4 : first = 0xFF
            · by_cases hl : rest.length + 1 < 9
              · exact Or.inr ⟨first, rest, rfl,
                  Or.inr (Or.inr ⟨h4, by omega⟩)⟩
              · rw [if_pos h4, if_neg hl] at hm; exact absurd hm (by simp)
            · have hf : first < 256 := hb first (List.mem_cons_self _ _)
              exact absurd hf (by omega)
    · rintro (heq | ⟨f, r, heq, hcase⟩)
      · exact absurd heq (by simp)
      · injection heq with e1 e2
        subst e1; subst e2
        rcases hcase with ⟨rfl, hlen⟩ | ⟨rfl, hlen⟩ | ⟨rfl, hlen⟩
        · exact ⟨"Data too short", decode_fd_short rest hlen, by rfl⟩
        · exact ⟨"Data too short", decode_fe_short rest hlen, by rfl⟩
        · exact ⟨"Data too short", decode_ff_short rest hlen, by rfl⟩

/-- Witness for C4's amended theorem at the truncated buffer `FF` followed
by seven zero bytes (7 trailing bytes where 8 are required). -/
theorem decode_truncated_iff_witness :
    (∃ m, decode [0xFF, 0, 0, 0, 0, 0, 0, 0] = .error m ∧
        isTruncatedMsg m = true) ↔
      (([0xFF, 0, 0, 0, 0, 0, 0, 0] : List Nat) = [] ∨
        ∃ first rest, ([0xFF, 0, 0, 0, 0, 0, 0, 0] : List Nat) = first :: rest ∧
          ((first = 0xFD ∧ rest.length < 2) ∨ (first = 0xFE ∧ rest.length < 4) ∨
           (first = 0xFF ∧ rest.length < 8))) :=
  decode_truncated_iff [0xFF, 0, 0, 0, 0, 0, 0, 0] (by unfold ByteBuf; decide)
